import Mathlib

/-!
Verification of the sortedlists repository: a sorted unique-element slice
(TSortedSlice, file app/sortedlists.go, instantiated at Int) and a sorted map
(TSortedMap, file sortedmap.go, with Int keys and Int values).

Conventions of the embedding:
* Go slices become Lean lists; indexing at a valid position becomes List.getD
  with default 0.
* The loop of slices.BinarySearch and of sort.Search is written with an
  explicit fuel argument; with fuel at least j - i the fuel never runs out,
  and every call site passes the length of the list, which always suffices.
* The Go map becomes an association list; map assignment keeps at most one
  binding per key and map deletion removes the binding of the key.
* slices.Sort is modelled by insertion sort over the reflexive order; on the
  linear order of integers the sorted arrangement of a list is unique, so any
  correct ascending sort gives the same value.
* A Go runtime fault (out of range slice index) is modelled by Option.none.
-/

namespace SortedLists

/-- Loop of Go slices.BinarySearch on the interval from i to j, with fuel.
The Go loop body is: while i < j, take h as the midpoint, move i past h when
the element at h is less than the target, otherwise move j down to h. -/
def bsearchAux (l : List Int) (t : Int) : Nat → Nat → Nat → Nat
  | 0, i, _ => i
  | fuel + 1, i, j =>
    if i < j then
      if l.getD ((i + j) / 2) 0 < t then bsearchAux l t fuel ((i + j) / 2 + 1) j
      else bsearchAux l t fuel i ((i + j) / 2)
    else i

/-- Go slices.BinarySearch: final position together with the found flag,
which is set when the position is in range and holds the target. -/
def binarySearch (l : List Int) (t : Int) : Nat × Bool :=
  (bsearchAux l t l.length 0 l.length,
   decide (bsearchAux l t l.length 0 l.length < l.length ∧
     l.getD (bsearchAux l t l.length 0 l.length) 0 = t))

/-- Go slices.Sort, ascending. -/
def slicesSort (l : List Int) : List Int := l.insertionSort (· ≤ ·)

/-- NewSlice: the constructor sorts the given list.  The capacity handling of
the Go code has no observable effect on the data. -/
def newSlice (l : List Int) : List Int := slicesSort l

/-- Data: defensive copy of the backing slice. -/
def dataGo (l : List Int) : List Int := l

/-- TSortedSlice.insert, app/sortedlists.go lines 240 to 269.  Note that the
code appends at the end whenever the found flag of the binary search is
false; the two branches below that one are unreachable. -/
def insertGo (l : List Int) (x : Int) : List Int × Bool :=
  if l.length = 0 then (l ++ [x], true)
  else
    let idx := (binarySearch l x).1
    let found := (binarySearch l x).2
    if !found then (l ++ [x], true)
    else if l.length = idx then (l ++ [x], true)
    else if l.getD idx 0 ≠ x then (l.take idx ++ x :: l.drop idx, true)
    else (l, false)

/-- TSortedSlice.delete, app/sortedlists.go lines 121 to 150. -/
def deleteGo (l : List Int) (x : Int) : List Int × Bool :=
  if l.length = 0 then (l, false)
  else
    let idx := (binarySearch l x).1
    let found := (binarySearch l x).2
    if !found then (l, false)
    else if idx < l.length ∧ l.getD idx 0 = x then
      if idx = 0 then
        (if l.length = 1 then (([] : List Int), true) else (l.drop 1, true))
      else if idx = l.length - 1 then (l.take idx, true)
      else (l.take idx ++ l.drop (idx + 1), true)
    else (l, false)

/-- TSortedSlice.findIndex, app/sortedlists.go lines 181 to 198. -/
def findIndexGo (l : List Int) (x : Int) : Int :=
  if l.length = 0 then -1
  else
    let idx := (binarySearch l x).1
    let found := (binarySearch l x).2
    if !found then -1
    else if idx < l.length ∧ l.getD idx 0 = x then (idx : Int)
    else -1

/-- TSortedSlice.rename, app/sortedlists.go lines 287 to 310. -/
def renameGo (l : List Int) (o n : Int) : List Int × Bool :=
  if l.length = 0 ∨ o = n then (l, false)
  else
    let idx := findIndexGo l o
    if idx < 0 then insertGo l n
    else
      let l2 := (insertGo l n).1
      let ok := (insertGo l n).2
      if !ok then
        if l2.getD idx.toNat 0 ≠ n then (slicesSort (l2.set idx.toNat n), true)
        else (l2, false)
      else deleteGo l2 o

/-- TSortedSlice.Get with an integer index, app/sortedlists.go lines 226 to
238.  The value none models the Go runtime fault raised by a negative index:
the code only checks the upper bound before indexing the slice. -/
def sget (l : List Int) (i : Int) : Option (Int × Bool) :=
  if i < (l.length : Int) then
    (if 0 ≤ i then some (l.getD i.toNat 0, true) else none)
  else some (0, false)

/-- One mutating operation on the sorted slice. -/
inductive SetOp where
  | ins (x : Int)
  | del (x : Int)
  | ren (o n : Int)

def applySetOp (l : List Int) : SetOp → List Int
  | SetOp.ins x => (insertGo l x).1
  | SetOp.del x => (deleteGo l x).1
  | SetOp.ren o n => (renameGo l o n).1

def applySetOps (l : List Int) (ops : List SetOp) : List Int :=
  ops.foldl applySetOp l

/-- Lookup in the association list modelling the Go map. -/
def mapLookup : List (Int × Int) → Int → Option Int
  | [], _ => none
  | p :: rest, k => if k = p.1 then some p.2 else mapLookup rest k

/-- Go built-in delete on the map: removes the binding of the key. -/
def mapErase : List (Int × Int) → Int → List (Int × Int)
  | [], _ => []
  | p :: rest, k => if p.1 = k then mapErase rest k else p :: mapErase rest k

/-- Go map assignment: the new binding replaces any binding of the key. -/
def mapAssign (m : List (Int × Int)) (k v : Int) : List (Int × Int) :=
  (k, v) :: mapErase m k

/-- State of TSortedMap: the entries map and the parallel key slice. -/
structure SortedMap where
  data : List (Int × Int)
  keys : List Int
  deriving DecidableEq

/-- NewSortedMap: empty map, empty key slice. -/
def newSortedMap : SortedMap := ⟨[], []⟩

/-- TSortedMap.Clear, sortedmap.go lines 75 to 85. -/
def smClear (_sm : SortedMap) : SortedMap := ⟨[], []⟩

/-- TSortedMap.Get, sortedmap.go lines 158 to 167; 0 is the zero value. -/
def smGet (sm : SortedMap) (k : Int) : Int × Bool :=
  match mapLookup sm.data k with
  | some v => (v, true)
  | none => (0, false)

/-- TSortedMap.Keys: defensive copy of the key slice. -/
def smKeys (sm : SortedMap) : List Int := sm.keys

/-- Loop of Go sort.Search with the predicate that the key at the probed
position is at least k, with fuel. -/
def sortSearchAux (l : List Int) (k : Int) : Nat → Nat → Nat → Nat
  | 0, i, _ => i
  | fuel + 1, i, j =>
    if i < j then
      if ¬ k ≤ l.getD ((i + j) / 2) 0 then sortSearchAux l k fuel ((i + j) / 2 + 1) j
      else sortSearchAux l k fuel i ((i + j) / 2)
    else i

/-- Key insertion block of TSortedMap.insert, sortedmap.go lines 197 to 219:
the insertion position comes from sort.Search over the key slice. -/
def insertKey (keys : List Int) (k : Int) : List Int :=
  if keys.length = 0 then keys ++ [k]
  else if keys.length = sortSearchAux keys k keys.length 0 keys.length then keys ++ [k]
  else if keys.getD (sortSearchAux keys k keys.length 0 keys.length) 0 ≠ k then
    keys.take (sortSearchAux keys k keys.length 0 keys.length) ++
      k :: keys.drop (sortSearchAux keys k keys.length 0 keys.length)
  else keys

/-- TSortedMap.insert, sortedmap.go lines 186 to 223. -/
def smInsert (sm : SortedMap) (k v : Int) : SortedMap × Bool :=
  if (mapLookup sm.data k).isSome then (⟨mapAssign sm.data k v, sm.keys⟩, true)
  else (⟨mapAssign sm.data k v, insertKey sm.keys k⟩, true)

/-- TSortedMap.delete, sortedmap.go lines 87 to 103; the loop over the key
slice removes the first occurrence of the key. -/
def smDelete (sm : SortedMap) (k : Int) : SortedMap × Bool :=
  if (mapLookup sm.data k).isSome then
    (⟨mapErase sm.data k, sm.keys.erase k⟩, true)
  else (sm, false)

/-- Loop of TSortedMap.rename over the key slice: the first occurrence of the
old key is replaced by the new key. -/
def replaceFirst : List Int → Int → Int → List Int
  | [], _, _ => []
  | a :: rest, o, n => if a = o then n :: rest else a :: replaceFirst rest o n

/-- TSortedMap.rename, sortedmap.go lines 284 to 312. -/
def smRename (sm : SortedMap) (oldK newK : Int) : SortedMap × Bool :=
  if (mapLookup sm.data newK).isSome then (sm, false)
  else if mapLookup sm.data oldK = none ∨ oldK = newK then (sm, false)
  else
    (⟨mapAssign (mapErase sm.data oldK) newK ((mapLookup sm.data oldK).getD 0),
      slicesSort (replaceFirst sm.keys oldK newK)⟩, true)

/-- One mutating operation on the sorted map. -/
inductive MapOp where
  | ins (k v : Int)
  | del (k : Int)
  | ren (o n : Int)
  | clr

def applyMapOp (sm : SortedMap) : MapOp → SortedMap
  | MapOp.ins k v => (smInsert sm k v).1
  | MapOp.del k => (smDelete sm k).1
  | MapOp.ren o n => (smRename sm o n).1
  | MapOp.clr => smClear sm

def applyMapOps (sm : SortedMap) (ops : List MapOp) : SortedMap :=
  ops.foldl applyMapOp sm

/-- Intended state invariant of TSortedMap: the key slice is strictly
ascending and holds exactly the keys bound in the entries map. -/
def Inv (sm : SortedMap) : Prop :=
  sm.keys.Sorted (· < ·) ∧ ∀ k : Int, k ∈ sm.keys ↔ (mapLookup sm.data k).isSome

example : newSlice [5, 3, 4, 1, 2] = [1, 2, 3, 4, 5] := by decide
example : insertGo [1, 2, 3, 4, 5] 6 = ([1, 2, 3, 4, 5, 6], true) := by decide
example : deleteGo [1, 2, 3, 4, 5, 6] 3 = ([1, 2, 4, 5, 6], true) := by decide
example : renameGo [1, 2, 4, 5, 6] 4 7 = ([1, 2, 5, 6, 7], true) := by decide

lemma sorted_getD_le {l : List Int} (hs : l.Sorted (· ≤ ·)) {p q : Nat}
    (hpq : p ≤ q) (hq : q < l.length) : l.getD p 0 ≤ l.getD q 0 := by
  rcases Nat.lt_or_ge p q with h | h
  · have hp : p < l.length := lt_trans h hq
    rw [List.getD_eq_getElem l 0 hp, List.getD_eq_getElem l 0 hq]
    exact List.pairwise_iff_getElem.mp hs p q hp hq h
  · have hpq2 : p = q := Nat.le_antisymm hpq h
    subst hpq2
    exact le_refl _

lemma bsearchAux_spec (l : List Int) (t : Int) (hs : l.Sorted (· ≤ ·)) :
    ∀ (fuel i j : Nat), i ≤ j → j ≤ l.length → j - i ≤ fuel →
    (∀ p, p < i → l.getD p 0 < t) →
    (∀ p, j ≤ p → p < l.length → t ≤ l.getD p 0) →
    i ≤ bsearchAux l t fuel i j ∧ bsearchAux l t fuel i j ≤ j ∧
      (∀ p, p < bsearchAux l t fuel i j → l.getD p 0 < t) ∧
      (∀ p, bsearchAux l t fuel i j ≤ p → p < l.length → t ≤ l.getD p 0) := by
  intro fuel
  induction fuel with
  | zero =>
    intro i j hij hjl hfuel hleft hright
    have hij2 : i = j := by omega
    subst hij2
    simp only [bsearchAux]
    exact ⟨le_refl i, le_refl i, hleft, hright⟩
  | succ f ih =>
    intro i j hij hjl hfuel hleft hright
    by_cases hlt : i < j
    · have hmlo : i ≤ (i + j) / 2 := by omega
      have hmhi : (i + j) / 2 < j := by omega
      have hmlen : (i + j) / 2 < l.length := lt_of_lt_of_le hmhi hjl
      by_cases hcmp : l.getD ((i + j) / 2) 0 < t
      · have hrw : bsearchAux l t (f + 1) i j = bsearchAux l t f ((i + j) / 2 + 1) j := by
          simp only [bsearchAux]
          rw [if_pos hlt, if_pos hcmp]
        rw [hrw]
        have hleft2 : ∀ p, p < (i + j) / 2 + 1 → l.getD p 0 < t := by
          intro p hp
          exact lt_of_le_of_lt (sorted_getD_le hs (by omega) hmlen) hcmp
        obtain ⟨ha, hb, hc, hd⟩ := ih ((i + j) / 2 + 1) j (by omega) hjl (by omega) hleft2 hright
        exact ⟨by omega, hb, hc, hd⟩
      · have hrw : bsearchAux l t (f + 1) i j = bsearchAux l t f i ((i + j) / 2) := by
          simp only [bsearchAux]
          rw [if_pos hlt, if_neg hcmp]
        rw [hrw]
        have hcmp2 : t ≤ l.getD ((i + j) / 2) 0 := not_lt.mp hcmp
        have hright2 : ∀ p, (i + j) / 2 ≤ p → p < l.length → t ≤ l.getD p 0 := by
          intro p hp hpl
          exact le_trans hcmp2 (sorted_getD_le hs hp hpl)
        obtain ⟨ha, hb, hc, hd⟩ := ih i ((i + j) / 2) (by omega) (by omega) (by omega) hleft hright2
        exact ⟨ha, by omega, hc, hd⟩
    · have hij2 : i = j := by omega
      subst hij2
      have hrw : bsearchAux l t (f + 1) i i = i := by
        simp only [bsearchAux]
        rw [if_neg hlt]
      rw [hrw]
      exact ⟨le_refl i, le_refl i, hleft, hright⟩

lemma bsearchFinal_spec (l : List Int) (t : Int) (hs : l.Sorted (· ≤ ·)) :
    bsearchAux l t l.length 0 l.length ≤ l.length ∧
      (∀ p, p < bsearchAux l t l.length 0 l.length → l.getD p 0 < t) ∧
      (∀ p, bsearchAux l t l.length 0 l.length ≤ p → p < l.length → t ≤ l.getD p 0) := by
  obtain ⟨_, hb, hc, hd⟩ := bsearchAux_spec l t hs l.length 0 l.length
    (Nat.zero_le _) (le_refl _) (by omega)
    (fun p hp => absurd hp (Nat.not_lt_zero p))
    (fun p hp hpl => absurd (Nat.lt_of_le_of_lt hp hpl) (lt_irrefl l.length))
  exact ⟨hb, hc, hd⟩

lemma sortSearchAux_eq_bsearchAux (l : List Int) (t : Int) :
    ∀ (fuel i j : Nat), sortSearchAux l t fuel i j = bsearchAux l t fuel i j := by
  intro fuel
  induction fuel with
  | zero => intro i j; rfl
  | succ f ih =>
    intro i j
    simp only [sortSearchAux, bsearchAux]
    by_cases hlt : i < j
    · rw [if_pos hlt, if_pos hlt]
      by_cases hcmp : l.getD ((i + j) / 2) 0 < t
      · rw [if_pos (not_le.mpr hcmp), if_pos hcmp, ih]
      · rw [if_neg (fun hn => hn (not_lt.mp hcmp)), if_neg hcmp, ih]
    · rw [if_neg hlt, if_neg hlt]

lemma mapLookup_erase (m : List (Int × Int)) (k q : Int) :
    mapLookup (mapErase m k) q = if q = k then none else mapLookup m q := by
  induction m with
  | nil =>
    simp only [mapErase, mapLookup]
    split <;> rfl
  | cons p rest ih =>
    by_cases hpk : p.1 = k
    · rw [show mapErase (p :: rest) k = mapErase rest k from by
        simp only [mapErase, if_pos hpk], ih]
      by_cases hqk : q = k
      · rw [if_pos hqk, if_pos hqk]
      · rw [if_neg hqk, if_neg hqk]
        have hqp : ¬ q = p.1 := fun h => hqk (h.trans hpk)
        rw [show mapLookup (p :: rest) q = mapLookup rest q from by
          simp only [mapLookup, if_neg hqp]]
    · rw [show mapErase (p :: rest) k = p :: mapErase rest k from by
        simp only [mapErase, if_neg hpk]]
      by_cases hqp : q = p.1
      · have hqk : ¬ q = k := fun h => hpk ((hqp.symm.trans h))
        rw [if_neg hqk]
        rw [show mapLookup (p :: mapErase rest k) q = some p.2 from by
          simp only [mapLookup, if_pos hqp]]
        rw [show mapLookup (p :: rest) q = some p.2 from by
          simp only [mapLookup, if_pos hqp]]
      · rw [show mapLookup (p :: mapErase rest k) q = mapLookup (mapErase rest k) q from by
          simp only [mapLookup, if_neg hqp], ih]
        by_cases hqk : q = k
        · rw [if_pos hqk, if_pos hqk]
        · rw [if_neg hqk, if_neg hqk]
          rw [show mapLookup (p :: rest) q = mapLookup rest q from by
            simp only [mapLookup, if_neg hqp]]

lemma mapLookup_assign (m : List (Int × Int)) (k v q : Int) :
    mapLookup (mapAssign m k v) q = if q = k then some v else mapLookup m q := by
  show mapLookup ((k, v) :: mapErase m k) q = _
  by_cases hqk : q = k
  · rw [if_pos hqk]
    simp only [mapLookup]
    rw [if_pos hqk]
  · rw [if_neg hqk]
    simp only [mapLookup]
    rw [if_neg hqk, mapLookup_erase, if_neg hqk]

lemma insertKey_spec (keys : List Int) (k : Int)
    (hs : keys.Sorted (· < ·)) (hk : k ∉ keys) :
    (insertKey keys k).Sorted (· < ·) ∧
      ∀ x, x ∈ insertKey keys k ↔ (x = k ∨ x ∈ keys) := by
  unfold insertKey
  by_cases h0 : keys.length = 0
  · rw [if_pos h0]
    have hnil : keys = [] := List.length_eq_zero.mp h0
    subst hnil
    exact ⟨List.sorted_singleton k, by intro x; simp⟩
  · rw [if_neg h0]
    have hsle : keys.Sorted (· ≤ ·) := hs.le_of_lt
    rw [sortSearchAux_eq_bsearchAux]
    set idx := bsearchAux keys k keys.length 0 keys.length with hidx
    obtain ⟨hA, hB, hC⟩ := bsearchFinal_spec keys k hsle
    rw [← hidx] at hA hB hC
    have hne : ∀ p, p < keys.length → keys.getD p 0 ≠ k := by
      intro p hp he
      apply hk
      rw [← he, List.getD_eq_getElem keys 0 hp]
      exact List.getElem_mem hp
    have hgt : ∀ p, idx ≤ p → p < keys.length → k < keys.getD p 0 := by
      intro p h1 h2
      exact lt_of_le_of_ne (hC p h1 h2) (fun he => hne p h2 he.symm)
    by_cases hEnd : keys.length = idx
    · rw [if_pos hEnd]
      constructor
      · refine List.pairwise_append.mpr ⟨hs, List.pairwise_singleton _ _, ?_⟩
        intro a ha b hb
        rw [List.mem_singleton] at hb
        subst hb
        obtain ⟨p, hp, rfl⟩ := List.mem_iff_getElem.mp ha
        have hpk := hB p (by omega)
        rwa [List.getD_eq_getElem keys 0 hp] at hpk
      · intro x
        rw [List.mem_append, List.mem_singleton]
        tauto
    · rw [if_neg hEnd]
      have hidxlen : idx < keys.length := lt_of_le_of_ne hA (fun h => hEnd h.symm)
      have hgetne : keys.getD idx 0 ≠ k := hne idx hidxlen
      rw [if_pos hgetne]
      have hperm : List.Perm (keys.take idx ++ k :: keys.drop idx) (k :: keys) := by
        refine List.perm_middle.trans ?_
        rw [List.take_append_drop]
      constructor
      · refine List.pairwise_append.mpr ⟨?_, ?_, ?_⟩
        · exact List.Pairwise.sublist (List.take_sublist _ _) hs
        · rw [List.pairwise_cons]
          constructor
          · intro b hb
            obtain ⟨p, hp, rfl⟩ := List.mem_iff_getElem.mp hb
            rw [List.getElem_drop]
            have hlen2 : idx + p < keys.length := by
              have hp2 := hp
              rw [List.length_drop] at hp2
              omega
            have hkp := hgt (idx + p) (by omega) hlen2
            rwa [List.getD_eq_getElem keys 0 hlen2] at hkp
          · exact List.Pairwise.sublist (List.drop_sublist _ _) hs
        · intro a ha b hb
          obtain ⟨p, hp, rfl⟩ := List.mem_iff_getElem.mp ha
          rw [List.getElem_take]
          have hplen : p < keys.length := by
            have hp2 := hp
            rw [List.length_take] at hp2
            omega
          have hpidx : p < idx := by
            have hp2 := hp
            rw [List.length_take] at hp2
            omega
          have hpk : keys[p] < k := by
            have hpb := hB p hpidx
            rwa [List.getD_eq_getElem keys 0 hplen] at hpb
          rcases List.mem_cons.mp hb with rfl | hb2
          · exact hpk
          · obtain ⟨q, hq, rfl⟩ := List.mem_iff_getElem.mp hb2
            rw [List.getElem_drop]
            have hqlen : idx + q < keys.length := by
              have hq2 := hq
              rw [List.length_drop] at hq2
              omega
            have hkq : k < keys[idx + q] := by
              have h2 := hgt (idx + q) (by omega) hqlen
              rwa [List.getD_eq_getElem keys 0 hqlen] at h2
            exact lt_trans hpk hkq
      · intro x
        rw [hperm.mem_iff, List.mem_cons]

lemma replaceFirst_perm (l : List Int) (o n : Int) (h : o ∈ l) :
    List.Perm (replaceFirst l o n) (n :: l.erase o) := by
  induction l with
  | nil => cases h
  | cons a rest ih =>
    by_cases hao : a = o
    · subst hao
      rw [show replaceFirst (a :: rest) a n = n :: rest from by simp [replaceFirst]]
      rw [List.erase_cons_head]
    · rw [show replaceFirst (a :: rest) o n = a :: replaceFirst rest o n from by
        simp only [replaceFirst, if_neg hao]]
      have ho : o ∈ rest := by
        rcases List.mem_cons.mp h with h1 | h1
        · exact absurd h1.symm hao
        · exact h1
      rw [List.erase_cons_tail (by simp [hao])]
      exact ((ih ho).cons a).trans (List.Perm.swap n a (rest.erase o))

lemma renameKeys_spec (keys : List Int) (o n : Int)
    (hs : keys.Sorted (· < ·)) (ho : o ∈ keys) (hn : n ∉ keys) :
    (slicesSort (replaceFirst keys o n)).Sorted (· < ·) ∧
      ∀ x, x ∈ slicesSort (replaceFirst keys o n) ↔ (x = n ∨ (x ∈ keys ∧ x ≠ o)) := by
  have hperm : List.Perm (slicesSort (replaceFirst keys o n)) (n :: keys.erase o) :=
    (List.perm_insertionSort _ _).trans (replaceFirst_perm keys o n ho)
  have hnodup0 : keys.Nodup := hs.nodup
  have hnodup : (n :: keys.erase o).Nodup := by
    rw [List.nodup_cons]
    exact ⟨fun hmem => hn ((List.erase_sublist o keys).subset hmem), hnodup0.erase o⟩
  constructor
  · exact List.Sorted.lt_of_le (List.sorted_insertionSort _ _) (hperm.nodup_iff.mpr hnodup)
  · intro x
    rw [hperm.mem_iff, List.mem_cons, hnodup0.mem_erase_iff]
    tauto

lemma inv_smInsert (sm : SortedMap) (k v : Int) (h : Inv sm) :
    Inv (smInsert sm k v).1 := by
  obtain ⟨hsort, hmem⟩ := h
  unfold smInsert
  by_cases hex : (mapLookup sm.data k).isSome
  · rw [if_pos hex]
    refine ⟨hsort, fun q => ?_⟩
    show q ∈ sm.keys ↔ (mapLookup (mapAssign sm.data k v) q).isSome
    rw [mapLookup_assign]
    by_cases hqk : q = k
    · subst hqk
      rw [if_pos rfl]
      simp [hmem q, hex]
    · rw [if_neg hqk]
      exact hmem q
  · rw [if_neg hex]
    have hknotin : k ∉ sm.keys := fun hc => hex ((hmem k).mp hc)
    obtain ⟨hs2, hm2⟩ := insertKey_spec sm.keys k hsort hknotin
    refine ⟨hs2, fun q => ?_⟩
    show q ∈ insertKey sm.keys k ↔ (mapLookup (mapAssign sm.data k v) q).isSome
    rw [hm2 q, mapLookup_assign]
    by_cases hqk : q = k
    · simp [hqk]
    · rw [if_neg hqk]
      simp [hqk, hmem q]

lemma inv_smDelete (sm : SortedMap) (k : Int) (h : Inv sm) :
    Inv (smDelete sm k).1 := by
  obtain ⟨hsort, hmem⟩ := h
  unfold smDelete
  by_cases hex : (mapLookup sm.data k).isSome
  · rw [if_pos hex]
    have hnodup : sm.keys.Nodup := hsort.nodup
    refine ⟨List.Pairwise.sublist (List.erase_sublist _ _) hsort, fun q => ?_⟩
    show q ∈ sm.keys.erase k ↔ (mapLookup (mapErase sm.data k) q).isSome
    rw [hnodup.mem_erase_iff, mapLookup_erase]
    by_cases hqk : q = k
    · simp [hqk]
    · rw [if_neg hqk]
      simp [hqk, hmem q]
  · rw [if_neg hex]
    exact ⟨hsort, hmem⟩

lemma inv_smRename (sm : SortedMap) (o n : Int) (h : Inv sm) :
    Inv (smRename sm o n).1 := by
  obtain ⟨hsort, hmem⟩ := h
  unfold smRename
  by_cases h1 : (mapLookup sm.data n).isSome
  · rw [if_pos h1]
    exact ⟨hsort, hmem⟩
  · rw [if_neg h1]
    by_cases h2 : mapLookup sm.data o = none ∨ o = n
    · rw [if_pos h2]
      exact ⟨hsort, hmem⟩
    · rw [if_neg h2]
      push_neg at h2
      obtain ⟨ho2, hon⟩ := h2
      have ho : o ∈ sm.keys := (hmem o).mpr (Option.isSome_iff_ne_none.mpr ho2)
      have hn : n ∉ sm.keys := fun hc => h1 ((hmem n).mp hc)
      obtain ⟨hs2, hm2⟩ := renameKeys_spec sm.keys o n hsort ho hn
      refine ⟨hs2, fun q => ?_⟩
      show q ∈ slicesSort (replaceFirst sm.keys o n) ↔
        (mapLookup (mapAssign (mapErase sm.data o) n ((mapLookup sm.data o).getD 0)) q).isSome
      rw [hm2 q, mapLookup_assign]
      by_cases hqn : q = n
      · simp [hqn]
      · rw [if_neg hqn, mapLookup_erase]
        by_cases hqo : q = o
        · simp [hqo, hqn, hon]
        · rw [if_neg hqo]
          simp [hqn, hqo, hmem q]

lemma inv_newSortedMap : Inv newSortedMap :=
  ⟨List.sorted_nil, by intro q; simp [newSortedMap, mapLookup]⟩

lemma inv_applyMapOps_of (ops : List MapOp) :
    ∀ sm : SortedMap, Inv sm → Inv (applyMapOps sm ops) := by
  induction ops with
  | nil => intro sm h; exact h
  | cons op rest ih =>
    intro sm h
    rw [show applyMapOps sm (op :: rest) = applyMapOps (applyMapOp sm op) rest from rfl]
    refine ih _ ?_
    cases op with
    | ins k v => exact inv_smInsert sm k v h
    | del k => exact inv_smDelete sm k h
    | ren o n => exact inv_smRename sm o n h
    | clr => exact ⟨List.sorted_nil, by intro q; simp [smClear, applyMapOp, mapLookup]⟩

lemma inv_applyMapOps (ops : List MapOp) : Inv (applyMapOps newSortedMap ops) :=
  inv_applyMapOps_of ops newSortedMap inv_newSortedMap

/-- Claim C1 fails on the code: starting from the constructed set 1, 2, 3, the
single operation Insert 0 leaves the backing sequence at 1, 2, 3, 0, which is
not strictly ascending.  The insert code appends at the end whenever the
binary search does not find the element. -/
theorem C1_insert_breaks_sort_invariant :
    dataGo (applySetOps (newSlice [1, 2, 3]) [SetOp.ins 0]) = [1, 2, 3, 0] ∧
    ¬ (dataGo (applySetOps (newSlice [1, 2, 3]) [SetOp.ins 0])).Sorted (· < ·) := by
  decide

/-- Claim C2 fails on the code: on the sorted slice 1, 2, 3 the call
Insert 0 returns true but appends 0 at the end instead of placing it at the
binary search insertion point 0, so the result is not the sorted slice
0, 1, 2, 3. -/
theorem C2_insert_misplaces_element :
    insertGo [1, 2, 3] 0 = ([1, 2, 3, 0], true) ∧
    (insertGo [1, 2, 3] 0).1 ≠ [0, 1, 2, 3] ∧
    ¬ (insertGo [1, 2, 3] 0).1.Sorted (· < ·) := by
  decide

/-- Claim C3 fails on the code: on the set 1, 2 the call Rename 1 2, where
both values are present, overwrites the slot of 1 with 2 and re-sorts,
leaving the duplicate pair 2, 2. -/
theorem C3_rename_creates_duplicate :
    renameGo [1, 2] 1 2 = ([2, 2], true) ∧
    ¬ (renameGo [1, 2] 1 2).1.Nodup := by
  decide

/-- Claim C4 fails on the code: on the sorted slice 1, 3 with the absent
element 2, Insert 2 appends at the end giving 1, 3, 2, and the following
Delete 2 misses the element because its binary search runs on an unsorted
slice, returning false and leaving 1, 3, 2 instead of restoring 1, 3. -/
theorem C4_roundtrip_fails :
    insertGo [1, 3] 2 = ([1, 3, 2], true) ∧
    deleteGo [1, 3, 2] 2 = ([1, 3, 2], false) ∧
    (deleteGo (insertGo [1, 3] 2).1 2).1 ≠ [1, 3] := by
  decide

/-- Claim C5 fails on the code for the set half: on the sorted slice 1, 3 the
first Insert 2 appends at the end giving 1, 3, 2 and returns true, and the
second Insert 2 fails to find the element, appends again giving 1, 3, 2, 2
and returns true, where the claim requires false and an unchanged state. -/
theorem C5_double_insert_not_idempotent :
    insertGo [1, 3] 2 = ([1, 3, 2], true) ∧
    insertGo [1, 3, 2] 2 = ([1, 3, 2, 2], true) := by
  decide

/-- Claim C9 fails as stated: on the empty set, Get with index minus one
passes the upper bound check minus one less than zero and reaches the out of
range slice access, modelled by none, instead of returning found equal
false. -/
theorem C9_counterexample_get_empty_negative :
    sget ([] : List Int) (-1) = none := by
  decide

/-- Claim C9, amended: Get on the empty map returns found equal false for
every key; on the sorted slice, Get returns found equal false whenever the
index is at least the length, and the stored element with found equal true
whenever the index is non-negative and below the length.  Negative indices
are excluded: they reach the out of range slice access. -/
theorem C9_get_bounds :
    (∀ k : Int, smGet newSortedMap k = (0, false)) ∧
    (∀ (l : List Int) (i : Int), (l.length : Int) ≤ i → sget l i = some (0, false)) ∧
    (∀ (l : List Int) (i : Int), 0 ≤ i → i < (l.length : Int) →
      sget l i = some (l.getD i.toNat 0, true)) := by
  refine ⟨fun k => rfl, fun l i h => ?_, fun l i h0 hl => ?_⟩
  · unfold sget
    rw [if_neg (not_lt.mpr h)]
  · unfold sget
    rw [if_pos hl, if_pos h0]

/-- Witness for the amended claim C9 at concrete inputs. -/
theorem C9_get_bounds_witness :
    smGet newSortedMap 7 = (0, false) ∧
    sget [4, 8] 5 = some (0, false) ∧
    sget [4, 8] 1 = some (8, true) := by
  refine ⟨C9_get_bounds.1 7, C9_get_bounds.2.1 [4, 8] 5 (by decide), ?_⟩
  exact C9_get_bounds.2.2 [4, 8] 1 (by decide) (by decide)

/-- Claim C10: on every non-empty sorted slice, Get with a negative index
reaches the out of range slice access, modelled by none, because the code
checks only that the index is below the length before indexing. -/
theorem C10_negative_index_faults (l : List Int) (i : Int)
    (_hne : l ≠ []) (hi : i < 0) : sget l i = none := by
  unfold sget
  have h0 : (0 : Int) ≤ (l.length : Int) := Int.natCast_nonneg _
  rw [if_pos (by omega : i < (l.length : Int)), if_neg (by omega : ¬ (0 : Int) ≤ i)]

/-- Witness for claim C10 at a concrete input. -/
theorem C10_negative_index_faults_witness : sget [5] (-1) = none :=
  C10_negative_index_faults [5] (-1) (by decide) (by decide)

/-- Claim C6: for the map created empty, after any finite sequence of Insert,
Delete, Rename and Clear operations, Keys returns exactly the keys bound in
the entries map, in strictly ascending order, hence with no duplicates and no
omissions. -/
theorem C6_keys_exactly_sorted_key_set (ops : List MapOp) :
    (smKeys (applyMapOps newSortedMap ops)).Sorted (· < ·) ∧
      ∀ k : Int, k ∈ smKeys (applyMapOps newSortedMap ops) ↔
        (mapLookup (applyMapOps newSortedMap ops).data k).isSome := by
  obtain ⟨h1, h2⟩ := inv_applyMapOps ops
  exact ⟨h1, h2⟩

/-- Claim C7: map Rename returns false and leaves the state unchanged when
the new key exists, or the old key is absent, or both keys are equal;
otherwise it moves the value to the new key, removes the old key from the
key order, places the new key in sorted position and returns true, after
which Get on the new key yields the old value with found true and Get on the
old key yields found false. -/
theorem C7_map_rename (sm : SortedMap) (oldK newK : Int) (hInv : Inv sm) :
    (((mapLookup sm.data newK).isSome ∨ mapLookup sm.data oldK = none ∨ oldK = newK) →
      smRename sm oldK newK = (sm, false)) ∧
    (∀ v : Int, mapLookup sm.data newK = none → mapLookup sm.data oldK = some v →
      oldK ≠ newK →
      (smRename sm oldK newK).2 = true ∧
      smGet (smRename sm oldK newK).1 newK = (v, true) ∧
      (smGet (smRename sm oldK newK).1 oldK).2 = false ∧
      (smRename sm oldK newK).1.keys.Sorted (· < ·) ∧
      (∀ q : Int, q ∈ (smRename sm oldK newK).1.keys ↔
        (q = newK ∨ (q ∈ sm.keys ∧ q ≠ oldK)))) := by
  obtain ⟨hsort, hmem⟩ := hInv
  constructor
  · intro hfail
    unfold smRename
    by_cases h1 : (mapLookup sm.data newK).isSome
    · rw [if_pos h1]
    · rw [if_neg h1]
      have h2 : mapLookup sm.data oldK = none ∨ oldK = newK := by
        rcases hfail with hf | hf | hf
        · exact absurd hf h1
        · exact Or.inl hf
        · exact Or.inr hf
      rw [if_pos h2]
  · intro v hnew hold hne2
    have h1 : ¬ (mapLookup sm.data newK).isSome := by rw [hnew]; simp
    have h2 : ¬ (mapLookup sm.data oldK = none ∨ oldK = newK) := by
      rintro (hf | hf)
      · rw [hold] at hf
        cases hf
      · exact hne2 hf
    unfold smRename
    rw [if_neg h1, if_neg h2]
    have ho : oldK ∈ sm.keys := (hmem oldK).mpr (by rw [hold]; rfl)
    have hn : newK ∉ sm.keys := fun hc => h1 ((hmem newK).mp hc)
    obtain ⟨hs2, hm2⟩ := renameKeys_spec sm.keys oldK newK hsort ho hn
    refine ⟨rfl, ?_, ?_, hs2, hm2⟩
    · show smGet ⟨mapAssign (mapErase sm.data oldK) newK ((mapLookup sm.data oldK).getD 0),
        slicesSort (replaceFirst sm.keys oldK newK)⟩ newK = (v, true)
      unfold smGet
      rw [show (⟨mapAssign (mapErase sm.data oldK) newK ((mapLookup sm.data oldK).getD 0),
        slicesSort (replaceFirst sm.keys oldK newK)⟩ : SortedMap).data
          = mapAssign (mapErase sm.data oldK) newK ((mapLookup sm.data oldK).getD 0) from rfl]
      rw [mapLookup_assign, if_pos rfl, hold]
      rfl
    · show (smGet ⟨mapAssign (mapErase sm.data oldK) newK ((mapLookup sm.data oldK).getD 0),
        slicesSort (replaceFirst sm.keys oldK newK)⟩ oldK).2 = false
      unfold smGet
      rw [show (⟨mapAssign (mapErase sm.data oldK) newK ((mapLookup sm.data oldK).getD 0),
        slicesSort (replaceFirst sm.keys oldK newK)⟩ : SortedMap).data
          = mapAssign (mapErase sm.data oldK) newK ((mapLookup sm.data oldK).getD 0) from rfl]
      rw [mapLookup_assign, if_neg hne2, mapLookup_erase, if_pos rfl]

/-- Witness for claim C7 at a concrete input: the map built by inserting the
pairs one ten and two twenty, renaming key one to key five. -/
theorem C7_map_rename_witness :
    (smRename (applyMapOps newSortedMap [MapOp.ins 1 10, MapOp.ins 2 20]) 1 5).2 = true ∧
    smGet (smRename (applyMapOps newSortedMap [MapOp.ins 1 10, MapOp.ins 2 20]) 1 5).1 5
      = (10, true) ∧
    (smGet (smRename (applyMapOps newSortedMap [MapOp.ins 1 10, MapOp.ins 2 20]) 1 5).1 1).2
      = false := by
  have h := C7_map_rename (applyMapOps newSortedMap [MapOp.ins 1 10, MapOp.ins 2 20]) 1 5
    (inv_applyMapOps [MapOp.ins 1 10, MapOp.ins 2 20])
  have h2 := h.2 10 (by decide) (by decide) (by decide)
  exact ⟨h2.1, h2.2.1, h2.2.2.1⟩

/-- Claim C8: map Insert always returns true; when the key exists it
overwrites the stored value, leaving the key order sequence unchanged; when
the key is absent it adds the key at its sorted position and binds the
value. -/
theorem C8_map_insert (sm : SortedMap) (k v : Int) (hInv : Inv sm) :
    (smInsert sm k v).2 = true ∧
    ((mapLookup sm.data k).isSome →
      (smInsert sm k v).1.keys = sm.keys ∧
      mapLookup (smInsert sm k v).1.data k = some v ∧
      ∀ q : Int, q ≠ k → mapLookup (smInsert sm k v).1.data q = mapLookup sm.data q) ∧
    (mapLookup sm.data k = none →
      (smInsert sm k v).1.keys.Sorted (· < ·) ∧
      (∀ q : Int, q ∈ (smInsert sm k v).1.keys ↔ (q = k ∨ q ∈ sm.keys)) ∧
      mapLookup (smInsert sm k v).1.data k = some v) := by
  obtain ⟨hsort, hmem⟩ := hInv
  refine ⟨?_, ?_, ?_⟩
  · unfold smInsert
    by_cases hex : (mapLookup sm.data k).isSome
    · rw [if_pos hex]
    · rw [if_neg hex]
  · intro hex
    unfold smInsert
    rw [if_pos hex]
    refine ⟨rfl, ?_, ?_⟩
    · show mapLookup (mapAssign sm.data k v) k = some v
      rw [mapLookup_assign, if_pos rfl]
    · intro q hq
      show mapLookup (mapAssign sm.data k v) q = mapLookup sm.data q
      rw [mapLookup_assign, if_neg hq]
  · intro hnone
    have hex : ¬ (mapLookup sm.data k).isSome := by rw [hnone]; simp
    unfold smInsert
    rw [if_neg hex]
    have hknotin : k ∉ sm.keys := fun hc => hex ((hmem k).mp hc)
    obtain ⟨hs2, hm2⟩ := insertKey_spec sm.keys k hsort hknotin
    refine ⟨hs2, hm2, ?_⟩
    show mapLookup (mapAssign sm.data k v) k = some v
    rw [mapLookup_assign, if_pos rfl]

/-- Witness for claim C8 at a concrete input: inserting the absent key three
with value thirty into the map holding keys one and two. -/
theorem C8_map_insert_witness :
    (smInsert (applyMapOps newSortedMap [MapOp.ins 1 10, MapOp.ins 2 20]) 3 30).2 = true ∧
    mapLookup (smInsert (applyMapOps newSortedMap [MapOp.ins 1 10, MapOp.ins 2 20]) 3 30).1.data 3
      = some 30 ∧
    ((3 : Int) ∈ (smInsert (applyMapOps newSortedMap [MapOp.ins 1 10, MapOp.ins 2 20]) 3 30).1.keys
      ↔ ((3 : Int) = 3 ∨ (3 : Int) ∈ (applyMapOps newSortedMap [MapOp.ins 1 10, MapOp.ins 2 20]).keys)) := by
  have h := C8_map_insert (applyMapOps newSortedMap [MapOp.ins 1 10, MapOp.ins 2 20]) 3 30
    (inv_applyMapOps [MapOp.ins 1 10, MapOp.ins 2 20])
  have h3 := h.2.2 (by decide)
  exact ⟨h.1, h3.2.2, h3.2.1 3⟩

end SortedLists
